import Mathlib

set_option linter.unusedSectionVars false

/-
  Verification of the generic graph-search library of the repository
  (src/graph.rs): num_reachable_targets, exists_path, shortest_path and
  num_of_paths.  Vertices are modelled by a type with decidable equality
  (finite where the corresponding Rust function is only called on finite
  graphs); the caller-supplied HashSet of neighbours is modelled by a list
  enumerating it; the visited HashMap of shortest_path is modelled by an
  association list; the BFS while-loops are modelled with an explicit fuel
  parameter, with a proof that the chosen fuel is always sufficient.
-/

namespace Aoc

variable {α : Type} {β : Type} [DecidableEq α]

/-- Association-list lookup, modelling HashMap access (first matching key). -/
def lookupA : List (α × β) → α → Option β
  | [], _ => none
  | (a, b) :: rest, x => if x = a then some b else lookupA rest x

/-- Index of the first entry with the given key, modelling discovery order
(the visited map of shortest_path only ever prepends fresh keys, so a larger
index means an earlier insertion). -/
def keyIdx : List (α × β) → α → Option Nat
  | [], _ => none
  | (a, _) :: rest, x => if x = a then some 0 else (keyIdx rest x).map (· + 1)

/-- The edge relation induced by a neighbour function: there is an edge from
a to b when b is among the neighbours returned for a. -/
def ERel (f : α → List α) (a b : α) : Prop := b ∈ f a

instance (f : α → List α) (a b : α) : Decidable (ERel f a b) :=
  inferInstanceAs (Decidable (b ∈ f a))

/-- A list of vertices is a walk when every consecutive pair is an edge. -/
def IsWalk (f : α → List α) (l : List α) : Prop := List.Chain' (ERel f) l

instance (f : α → List α) (l : List α) : Decidable (IsWalk f l) :=
  inferInstanceAs (Decidable (List.Chain' _ l))

/-- A walk from a to b: consecutive vertices connected, first a, last b. -/
def WalkFT (f : α → List α) (a b : α) (l : List α) : Prop :=
  IsWalk f l ∧ l.head? = some a ∧ l.getLast? = some b

instance (f : α → List α) (a b : α) (l : List α) : Decidable (WalkFT f a b l) :=
  inferInstanceAs (Decidable (_ ∧ _ ∧ _))

/-- The path-reconstruction loop of shortest_path: starting from cur, follow
parent links recorded in the visited map, building the path front-to-back
(the Rust code fills a buffer back-to-front, which produces the same list).
Returns none when a lookup misses or the fuel runs out, both of which model
executions the Rust code would not complete (a panic or divergence); they are
proved unreachable below. -/
def chainFrom (vis : List (α × Option α)) : Nat → α → Option (List α)
  | 0, _ => none
  | fuel + 1, cur =>
    match lookupA vis cur with
    | none => none
    | some none => some [cur]
    | some (some p) =>
      match chainFrom vis fuel p with
      | none => none
      | some l => some (l ++ [cur])

/-- Inner for-loop of num_reachable_targets: for each neighbour not yet
visited, mark it visited, enqueue it, and count it when it is a target. -/
def nrtFold (is_tgt : α → Bool) : List α → List α → List α → Nat → List α × List α × Nat
  | [], vis, q, res => (vis, q, res)
  | nbr :: rest, vis, q, res =>
    if nbr ∈ vis then nrtFold is_tgt rest vis q res
    else nrtFold is_tgt rest (nbr :: vis) (q ++ [nbr]) (if is_tgt nbr then res + 1 else res)

/-- BFS while-loop of num_reachable_targets (fuel-bounded). -/
def nrtLoop (is_tgt : α → Bool) (f : α → List α) : Nat → List α → List α → Nat → Option Nat
  | 0, _, _, _ => none
  | fuel + 1, vis, q, res =>
    match q with
    | [] => some res
    | u :: q' =>
      match nrtFold is_tgt (f u) vis q' res with
      | (vis', q'', res') => nrtLoop is_tgt f fuel vis' q'' res'

/-- num_reachable_targets from src/graph.rs: counts the source when it is a
target, then runs a BFS counting every newly visited target vertex. -/
def num_reachable_targets [Fintype α] (src : α) (is_tgt : α → Bool) (f : α → List α) : Nat :=
  (nrtLoop is_tgt f (2 * Fintype.card α) [src] [src]
    (if is_tgt src then 1 else 0)).getD 0

/-- Inner for-loop of exists_path: returns the updated state, or the final
boolean when the target is discovered among the fresh neighbours. -/
def epFold (tgt : α) : List α → List α → List α → (List α × List α) ⊕ Bool
  | [], vis, q => Sum.inl (vis, q)
  | nbr :: rest, vis, q =>
    if nbr ∈ vis then epFold tgt rest vis q
    else if nbr = tgt then Sum.inr true
    else epFold tgt rest (nbr :: vis) (q ++ [nbr])

/-- BFS while-loop of exists_path (fuel-bounded). -/
def epLoop (tgt : α) (f : α → List α) : Nat → List α → List α → Option Bool
  | 0, _, _ => none
  | fuel + 1, vis, q =>
    match q with
    | [] => some false
    | u :: q' =>
      match epFold tgt (f u) vis q' with
      | Sum.inl (vis', q'') => epLoop tgt f fuel vis' q''
      | Sum.inr b => some b

/-- exists_path from src/graph.rs. -/
def exists_path [Fintype α] (src tgt : α) (f : α → List α) : Bool :=
  if src = tgt then true
  else (epLoop tgt f (2 * Fintype.card α) [src] [src]).getD false

/-- Inner for-loop of shortest_path: each vacant neighbour is inserted into
the visited map with parent u and enqueued at distance d + 1; when that
neighbour is the target, the reconstructed path is returned at once. -/
def spNbrs (f : α → List α) (tgt u : α) (d : Nat) :
    List α → List (α × Option α) → List (α × Nat) →
      (List (α × Option α) × List (α × Nat)) ⊕ Option (List α)
  | [], vis, q => Sum.inl (vis, q)
  | nbr :: rest, vis, q =>
    match lookupA vis nbr with
    | some _ => spNbrs f tgt u d rest vis q
    | none =>
      if nbr = tgt then Sum.inr (chainFrom ((nbr, some u) :: vis) ((nbr, some u) :: vis).length tgt)
      else spNbrs f tgt u d rest ((nbr, some u) :: vis) (q ++ [(nbr, d + 1)])

/-- BFS while-loop of shortest_path (fuel-bounded). -/
def spLoop (f : α → List α) (tgt : α) : Nat → List (α × Option α) → List (α × Nat) → Option (List α)
  | 0, _, _ => none
  | fuel + 1, vis, q =>
    match q with
    | [] => none
    | (u, d) :: q' =>
      match spNbrs f tgt u d (f u) vis q' with
      | Sum.inl (vis', q'') => spLoop f tgt fuel vis' q''
      | Sum.inr res => res

/-- shortest_path from src/graph.rs. -/
def shortest_path [Fintype α] (src tgt : α) (f : α → List α) : Option (List α) :=
  if src = tgt then some [src]
  else spLoop f tgt (2 * Fintype.card α) [(src, none)] [(src, 0)]

/-- Worklist form of the recursion of num_of_paths: processes a list of
pending start vertices, adding one for each target neighbour and recursing
into each non-target neighbour, exactly as the Rust for-loop does.  Fuel
models the unbounded recursion; none means the fuel ran out. -/
def numOfPathsGo (is_tgt : α → Bool) (f : α → List α) : Nat → List α → Option Nat
  | 0, _ => none
  | _ + 1, [] => some 0
  | fuel + 1, nbr :: rest =>
    match (if is_tgt nbr then some 1 else numOfPathsGo is_tgt f fuel (f nbr)),
          numOfPathsGo is_tgt f fuel rest with
    | some a, some b => some (a + b)
    | _, _ => none

/-- num_of_paths from src/graph.rs (fuel-bounded: some n is the value the
Rust recursion returns whenever it terminates). -/
def num_of_paths (fuel : Nat) (src : α) (is_tgt : α → Bool) (f : α → List α) : Option Nat :=
  numOfPathsGo is_tgt f fuel (f src)

/-- The neighbour function of the DAG in test_num_paths of src/graph.rs. -/
def dagEdges : Nat → List Nat
  | 0 => [1, 2]
  | 1 => [3]
  | 2 => [4]
  | 3 => [5]
  | 4 => [6]
  | 5 => [7]
  | 6 => [7]
  | 7 => [8, 9]
  | _ => []

/-- Specification-side notion for num_of_paths: w lists the vertices of a
walk strictly after src, each consecutive pair (and src to the first entry)
is an edge, no vertex before the last satisfies the target predicate, and
the last vertex does.  These are exactly the walks that terminate the
instant they reach a satisfying vertex. -/
def IsTermWalk (f : α → List α) (is_tgt : α → Bool) (src : α) (w : List α) : Prop :=
  w ≠ [] ∧ List.Chain (ERel f) src w ∧ (∀ v ∈ w.dropLast, is_tgt v = false) ∧
    ∃ t, w.getLast? = some t ∧ is_tgt t = true

/-- Terminating walks whose first vertex lies in a given list of start
vertices; auxiliary generalisation of IsTermWalk for the worklist recursion. -/
def TermWalkFrom (f : α → List α) (is_tgt : α → Bool) (nbrs : List α) (w : List α) : Prop :=
  ∃ x w', w = x :: w' ∧ x ∈ nbrs ∧ List.Chain (ERel f) x w' ∧
    (∀ v ∈ (x :: w').dropLast, is_tgt v = false) ∧
    ∃ t, (x :: w').getLast? = some t ∧ is_tgt t = true

/-- The recursion relation of num_of_paths: the call at a recurses into b
when b is a neighbour of a that does not satisfy the target predicate. -/
def NRel (f : α → List α) (is_tgt : α → Bool) (a b : α) : Prop :=
  b ∈ f a ∧ is_tgt b = false

/-- An edge both of whose endpoints avoid the target predicate; a cycle of
such edges is a cycle that avoids all target vertices. -/
def NTRel (f : α → List α) (is_tgt : α → Bool) (a b : α) : Prop :=
  b ∈ f a ∧ is_tgt a = false ∧ is_tgt b = false

instance (f : α → List α) (is_tgt : α → Bool) (a b : α) : Decidable (NRel f is_tgt a b) :=
  inferInstanceAs (Decidable (_ ∧ _))

instance (f : α → List α) (is_tgt : α → Bool) (a b : α) : Decidable (NTRel f is_tgt a b) :=
  inferInstanceAs (Decidable (_ ∧ _ ∧ _))

/-- Two-vertex graph with the single edge 0 → 1, used to exhibit concrete
runs of the library functions. -/
def pathGraph2 : Fin 2 → List (Fin 2) :=
  fun x => if x = 0 then [1] else []

/-- A configuration of the shortest_path search: the visited map, the queue,
and the current frame (the popped vertex, its distance, and the neighbours
not yet examined), or no frame between loop iterations. -/
structure SPConf (α : Type) where
  vis : List (α × Option α)
  q : List (α × Nat)
  frame : Option (α × Nat × List α)

/-- Small-step transition relation of the shortest_path search, at the
granularity of a single queue pop or a single neighbour examination, so that
every intermediate visited map of the Rust loop occurs in some reachable
configuration. -/
inductive SPStep (f : α → List α) (tgt : α) : SPConf α → SPConf α → Prop where
  | pop : ∀ vis u d q, SPStep f tgt ⟨vis, (u, d) :: q, none⟩ ⟨vis, q, some (u, d, f u)⟩
  | seen : ∀ vis q u d nbr rest, (lookupA vis nbr).isSome →
      SPStep f tgt ⟨vis, q, some (u, d, nbr :: rest)⟩ ⟨vis, q, some (u, d, rest)⟩
  | visit : ∀ vis q u d nbr rest, lookupA vis nbr = none → nbr ≠ tgt →
      SPStep f tgt ⟨vis, q, some (u, d, nbr :: rest)⟩
        ⟨(nbr, some u) :: vis, q ++ [(nbr, d + 1)], some (u, d, rest)⟩
  | found : ∀ vis q u d rest, lookupA vis tgt = none →
      SPStep f tgt ⟨vis, q, some (u, d, tgt :: rest)⟩
        ⟨(tgt, some u) :: vis, q ++ [(tgt, d + 1)], some (u, d, rest)⟩
  | finish : ∀ vis q u d, SPStep f tgt ⟨vis, q, some (u, d, [])⟩ ⟨vis, q, none⟩

/-- The initial configuration of the shortest_path search from src. -/
def spInit (src : α) : SPConf α :=
  ⟨[(src, none)], [(src, 0)], none⟩

/-- The buffer slots written by the backward fill of shortest_path when a
parent chain of k vertices is written into a buffer of outLen slots: the
first write goes to slot outLen - 1, the i-th to slot outLen - 1 - i. -/
def writeTrace (outLen k : Nat) : List Nat :=
  (List.range k).map (fun i => outLen - 1 - i)

/-- Invariant of the BFS loop of num_reachable_targets. -/
structure NrtInv (f : α → List α) (is_tgt : α → Bool) (src : α)
    (vis q : List α) (res : Nat) : Prop where
  nodup : vis.Nodup
  srcMem : src ∈ vis
  qSub : ∀ v ∈ q, v ∈ vis
  count : res = vis.countP is_tgt
  reach : ∀ v ∈ vis, Relation.ReflTransGen (ERel f) src v
  closed : ∀ v ∈ vis, v ∈ q ∨ ∀ y ∈ f v, y ∈ vis

/-- Invariant of the BFS loop of exists_path. -/
structure EpInv (f : α → List α) (src tgt : α) (vis q : List α) : Prop where
  nodup : vis.Nodup
  srcMem : src ∈ vis
  qSub : ∀ v ∈ q, v ∈ vis
  tgtOut : tgt ∉ vis
  reach : ∀ v ∈ vis, Relation.ReflTransGen (ERel f) src v
  closed : ∀ v ∈ vis, v ∈ q ∨ ∀ y ∈ f v, y ∈ vis

/-- Invariant of the BFS loop of shortest_path, between two pops. -/
structure SPInv (f : α → List α) (src tgt : α)
    (vis : List (α × Option α)) (q : List (α × Nat)) : Prop where
  nodup : (vis.map Prod.fst).Nodup
  srcRoot : lookupA vis src = some none
  tgtOut : lookupA vis tgt = none
  qVis : ∀ e ∈ q, (lookupA vis e.1).isSome
  qChain : ∀ e ∈ q, ∃ l, chainFrom vis vis.length e.1 = some l ∧
    l.length = e.2 + 1 ∧ WalkFT f src e.1 l
  qMin : ∀ e ∈ q, ∀ l, WalkFT f src e.1 l → e.2 + 1 ≤ l.length
  qPair : List.Pairwise (fun a b : α × Nat => a.2 ≤ b.2 ∧ b.2 ≤ a.2 + 1) q
  closed : ∀ v, (lookupA vis v).isSome →
    (∃ dd, (v, dd) ∈ q) ∨ ∀ y ∈ f v, (lookupA vis y).isSome

/-- Invariant of the shortest_path search in the middle of processing the
neighbours of the popped vertex u at distance d; pend lists the neighbours
not yet examined. -/
structure SPMid (f : α → List α) (src tgt u : α) (d : Nat)
    (vis : List (α × Option α)) (q : List (α × Nat)) (pend : List α) : Prop where
  nodup : (vis.map Prod.fst).Nodup
  srcRoot : lookupA vis src = some none
  tgtOut : lookupA vis tgt = none
  qVis : ∀ e ∈ q, (lookupA vis e.1).isSome
  qChain : ∀ e ∈ q, ∃ l, chainFrom vis vis.length e.1 = some l ∧
    l.length = e.2 + 1 ∧ WalkFT f src e.1 l
  qMin : ∀ e ∈ q, ∀ l, WalkFT f src e.1 l → e.2 + 1 ≤ l.length
  qPair : List.Pairwise (fun a b : α × Nat => a.2 ≤ b.2 ∧ b.2 ≤ a.2 + 1) q
  qBound : ∀ e ∈ q, d ≤ e.2 ∧ e.2 ≤ d + 1
  uVis : (lookupA vis u).isSome
  uChain : ∃ l, chainFrom vis vis.length u = some l ∧
    l.length = d + 1 ∧ WalkFT f src u l
  uMin : ∀ l, WalkFT f src u l → d + 1 ≤ l.length
  uPend : ∀ y ∈ f u, (lookupA vis y).isSome ∨ y ∈ pend
  pendSub : ∀ y ∈ pend, y ∈ f u
  closed : ∀ v, (lookupA vis v).isSome →
    (∃ dd, (v, dd) ∈ q) ∨ v = u ∨ ∀ y ∈ f v, (lookupA vis y).isSome

/-- Invariant: the visited map of the shortest_path search is a parent tree
rooted at the source: the source maps to none, it is the only vertex that
does, every other vertex maps to some parent inserted strictly earlier (a
larger index in the association list, which grows by prepending), and the
parent chain from every visited vertex reaches the source in finitely many
steps. -/
structure TreeInv (f : α → List α) (src : α) (vis : List (α × Option α)) : Prop where
  nodup : (vis.map Prod.fst).Nodup
  srcRoot : lookupA vis src = some none
  rootUnique : ∀ v, lookupA vis v = some none → v = src
  parentEarlier : ∀ v p, lookupA vis v = some (some p) →
    ∃ i j, keyIdx vis v = some i ∧ keyIdx vis p = some j ∧ i < j
  chains : ∀ v pd, lookupA vis v = some pd →
    ∃ l, chainFrom vis vis.length v = some l ∧ l.head? = some src

/-- Invariant of a configuration of the shortest_path search. -/
structure ConfInv (f : α → List α) (src : α) (c : SPConf α) : Prop where
  tree : TreeInv f src c.vis
  qVis : ∀ e ∈ c.q, (lookupA c.vis e.1).isSome
  frameVis : ∀ u d rest, c.frame = some (u, d, rest) → (lookupA c.vis u).isSome

/-! Basic lemmas about association-list lookup. -/

lemma lookupA_cons_self (a : α) (b : β) (l : List (α × β)) :
    lookupA ((a, b) :: l) a = some b := by
  simp [lookupA]

lemma lookupA_cons_ne {x a : α} (b : β) (l : List (α × β)) (h : x ≠ a) :
    lookupA ((a, b) :: l) x = lookupA l x := by
  simp [lookupA, h]

lemma lookupA_eq_none_iff {l : List (α × β)} {x : α} :
    lookupA l x = none ↔ x ∉ l.map Prod.fst := by
  induction l with
  | nil => simp [lookupA]
  | cons e rest ih =>
    obtain ⟨a, b⟩ := e
    by_cases hx : x = a
    · subst hx
      simp [lookupA]
    · rw [lookupA_cons_ne _ _ hx, ih]
      simp [hx]

lemma lookupA_mem_of_eq_some {l : List (α × β)} {x : α} {b : β}
    (h : lookupA l x = some b) : (x, b) ∈ l := by
  induction l with
  | nil => simp [lookupA] at h
  | cons e rest ih =>
    obtain ⟨a, c⟩ := e
    by_cases hx : x = a
    · subst hx
      rw [lookupA_cons_self] at h
      injection h with h
      subst h
      exact List.mem_cons_self _ _
    · rw [lookupA_cons_ne _ _ hx] at h
      exact List.mem_cons_of_mem _ (ih h)

lemma lookupA_isSome_iff {l : List (α × β)} {x : α} :
    (lookupA l x).isSome ↔ x ∈ l.map Prod.fst := by
  cases h : lookupA l x with
  | none => simp [lookupA_eq_none_iff.mp h]
  | some b =>
    simp only [Option.isSome_some, true_iff]
    exact List.mem_map.mpr ⟨(x, b), lookupA_mem_of_eq_some h, rfl⟩

/-! Equation and inversion lemmas for the parent-chain reconstruction. -/

lemma chainFrom_succ_root {vis : List (α × Option α)} {cur : α} {n : Nat}
    (hv : lookupA vis cur = some none) :
    chainFrom vis (n + 1) cur = some [cur] := by
  simp [chainFrom, hv]

lemma chainFrom_succ_parent {vis : List (α × Option α)} {cur p : α} {n : Nat} {l : List α}
    (hv : lookupA vis cur = some (some p)) (hc : chainFrom vis n p = some l) :
    chainFrom vis (n + 1) cur = some (l ++ [cur]) := by
  simp [chainFrom, hv, hc]

lemma chainFrom_succ_inv {vis : List (α × Option α)} {cur : α} {n : Nat} {l : List α}
    (h : chainFrom vis (n + 1) cur = some l) :
    (lookupA vis cur = some none ∧ l = [cur]) ∨
      ∃ p l', lookupA vis cur = some (some p) ∧ chainFrom vis n p = some l' ∧ l = l' ++ [cur] := by
  rw [chainFrom] at h
  split at h
  · exact absurd h (by simp)
  · next hv =>
    left
    injection h with h
    exact ⟨hv, h.symm⟩
  · next p hv =>
    right
    split at h
    · exact absurd h (by simp)
    · next l' hc =>
      injection h with h
      exact ⟨p, l', hv, hc, h.symm⟩

/-! Fuel monotonicity and stability of the parent-chain reconstruction. -/

lemma chainFrom_mono {vis : List (α × Option α)} :
    ∀ {fuel fuel' : Nat} {v : α} {l : List α}, fuel ≤ fuel' →
      chainFrom vis fuel v = some l → chainFrom vis fuel' v = some l := by
  intro fuel
  induction fuel with
  | zero => intro fuel' v l _ h; simp [chainFrom] at h
  | succ n ih =>
    intro fuel' v l hle h
    obtain ⟨m, rfl⟩ : ∃ m, fuel' = m + 1 := ⟨fuel' - 1, by omega⟩
    rcases chainFrom_succ_inv h with ⟨hv, rfl⟩ | ⟨p, l', hv, hc, rfl⟩
    · exact chainFrom_succ_root hv
    · exact chainFrom_succ_parent hv (ih (by omega) hc)

lemma chainFrom_cons_fresh {vis : List (α × Option α)} {a : α} (pd : Option α)
    (ha : a ∉ vis.map Prod.fst) :
    ∀ {fuel : Nat} {v : α} {l : List α}, chainFrom vis fuel v = some l →
      chainFrom ((a, pd) :: vis) fuel v = some l := by
  intro fuel
  induction fuel with
  | zero => intro v l h; simp [chainFrom] at h
  | succ n ih =>
    intro v l h
    rcases chainFrom_succ_inv h with ⟨hv, rfl⟩ | ⟨p, l', hv, hc, rfl⟩
    · have hva : v ≠ a := by
        intro hva
        exact ha (hva ▸ lookupA_isSome_iff.mp (by simp [hv]))
      exact chainFrom_succ_root (by rw [lookupA_cons_ne _ _ hva]; exact hv)
    · have hva : v ≠ a := by
        intro hva
        exact ha (hva ▸ lookupA_isSome_iff.mp (by simp [hv]))
      exact chainFrom_succ_parent (by rw [lookupA_cons_ne _ _ hva]; exact hv) (ih hc)

/-! Walks versus reflexive-transitive closure of the edge relation. -/

lemma walkFT_nonempty {f : α → List α} {a b : α} {l : List α}
    (h : WalkFT f a b l) : l ≠ [] := by
  rintro rfl
  simp [WalkFT] at h

lemma walkFT_single {f : α → List α} {a b : α} (h : WalkFT f a b [a]) : b = a := by
  obtain ⟨-, -, hl⟩ := h
  simp at hl
  exact hl.symm

lemma walkFT_singleton (f : α → List α) (a : α) : WalkFT f a a [a] := by
  refine ⟨?_, ?_, ?_⟩ <;> simp [IsWalk]

lemma walkFT_cons_inv {f : α → List α} {a b x y : α} {rest : List α}
    (h : WalkFT f a b (x :: y :: rest)) :
    x = a ∧ ERel f a y ∧ WalkFT f y b (y :: rest) := by
  obtain ⟨hw, hh, hl⟩ := h
  simp at hh
  subst hh
  rw [IsWalk, List.chain'_cons] at hw
  refine ⟨rfl, hw.1, hw.2, by simp, ?_⟩
  rw [List.getLast?_cons_cons] at hl
  cases rest with
  | nil => simpa using hl
  | cons z zs => rw [List.getLast?_cons_cons] at hl ⊢; exact hl

lemma walkFT_cons {f : α → List α} {a b c : α} {l : List α}
    (hab : ERel f a c) (h : WalkFT f c b l) : WalkFT f a b (a :: l) := by
  obtain ⟨hw, hh, hl⟩ := h
  cases l with
  | nil => simp at hh
  | cons x xs =>
    simp at hh
    subst hh
    refine ⟨?_, by simp, ?_⟩
    · rw [IsWalk, List.chain'_cons]
      exact ⟨hab, hw⟩
    · rw [List.getLast?_cons_cons]
      exact hl

lemma walkFT_concat {f : α → List α} {a u v : α} {l : List α}
    (h : WalkFT f a u l) (he : ERel f u v) : WalkFT f a v (l ++ [v]) := by
  obtain ⟨hw, hh, hl⟩ := h
  have hne : l ≠ [] := by rintro rfl; simp at hh
  refine ⟨?_, ?_, ?_⟩
  · rw [IsWalk, List.chain'_append]
    refine ⟨hw, by simp [IsWalk], ?_⟩
    intro x hx y hy
    simp at hy
    subst hy
    rw [hl] at hx
    simp at hx
    subst hx
    exact he
  · rw [List.head?_append_of_ne_nil _ hne]
    exact hh
  · simp

lemma walkFT_reflTransGen {f : α → List α} :
    ∀ {l : List α} {a b : α}, WalkFT f a b l → Relation.ReflTransGen (ERel f) a b := by
  intro l
  induction l with
  | nil => intro a b h; exact absurd rfl (walkFT_nonempty h)
  | cons x rest ih =>
    intro a b h
    cases rest with
    | nil =>
      have hx : x = a := by
        obtain ⟨-, hh, -⟩ := h
        simpa using hh
      subst hx
      have := walkFT_single h
      subst this
      exact Relation.ReflTransGen.refl
    | cons y ys =>
      obtain ⟨-, he, hw⟩ := walkFT_cons_inv h
      exact Relation.ReflTransGen.head he (ih hw)

lemma reflTransGen_walkFT {f : α → List α} {a b : α}
    (h : Relation.ReflTransGen (ERel f) a b) : ∃ l, WalkFT f a b l := by
  induction h using Relation.ReflTransGen.head_induction_on with
  | refl => exact ⟨[b], walkFT_singleton f b⟩
  | head he _ ih =>
    obtain ⟨l, hl⟩ := ih
    exact ⟨_ :: l, walkFT_cons he hl⟩

/-- Crossing lemma: a walk from a vertex satisfying P to one that does not
must contain an edge leaving P, and the walk up to that edge is a strictly
shorter walk. -/
lemma walk_cross {f : α → List α} {P : α → Prop} :
    ∀ {l : List α} {a b : α}, WalkFT f a b l → P a → ¬ P b →
      ∃ x lx, WalkFT f a x lx ∧ P x ∧ (∃ y, ERel f x y ∧ ¬ P y) ∧ lx.length < l.length := by
  intro l
  induction l with
  | nil => intro a b h _ _; exact absurd rfl (walkFT_nonempty h)
  | cons x rest ih =>
    intro a b h hPa hPb
    cases rest with
    | nil =>
      have hx : x = a := by
        obtain ⟨-, hh, -⟩ := h
        simpa using hh
      subst hx
      have := walkFT_single h
      subst this
      exact absurd hPa hPb
    | cons c cs =>
      obtain ⟨-, he, hw⟩ := walkFT_cons_inv h
      by_cases hPc : P c
      · obtain ⟨x', lx, hwx, hPx, hout, hlen⟩ := ih hw hPc hPb
        refine ⟨x', a :: lx, walkFT_cons he hwx, hPx, hout, ?_⟩
        simpa using Nat.succ_lt_succ hlen
      · exact ⟨a, [a], walkFT_singleton f a, hPa, ⟨c, he, hPc⟩, by simp⟩

/-! Closure of a visited list implies it contains the reachable set. -/

lemma reach_mem_of_closed {f : α → List α} {vis : List α} {src : α}
    (hsrc : src ∈ vis) (hcl : ∀ v ∈ vis, ∀ y ∈ f v, y ∈ vis) :
    ∀ w, Relation.ReflTransGen (ERel f) src w → w ∈ vis := by
  intro w h
  induction h with
  | refl => exact hsrc
  | tail _ e ih => exact hcl _ ih _ e

/-! The inner loop of num_reachable_targets, characterised by the list of
newly visited vertices it adds. -/

lemma nrtFold_spec (is_tgt : α → Bool) :
    ∀ (nbrs vis q : List α) (res : Nat), ∃ add : List α,
      nrtFold is_tgt nbrs vis q res = (add.reverse ++ vis, q ++ add, res + add.countP is_tgt) ∧
      add.Nodup ∧ (∀ x ∈ add, x ∈ nbrs ∧ x ∉ vis) ∧ (∀ x ∈ nbrs, x ∈ vis ∨ x ∈ add) := by
  intro nbrs
  induction nbrs with
  | nil =>
    intro vis q res
    refine ⟨[], by simp [nrtFold], by simp, by simp, by simp⟩
  | cons nbr rest ih =>
    intro vis q res
    by_cases hv : nbr ∈ vis
    · obtain ⟨add, heq, hnd, hsub, hcov⟩ := ih vis q res
      refine ⟨add, ?_, hnd, ?_, ?_⟩
      · rw [nrtFold, if_pos hv]
        exact heq
      · exact fun x hx => ⟨List.mem_cons_of_mem _ (hsub x hx).1, (hsub x hx).2⟩
      · intro x hx
        rcases List.mem_cons.mp hx with rfl | hx'
        · exact Or.inl hv
        · exact hcov x hx'
    · obtain ⟨add, heq, hnd, hsub, hcov⟩ := ih (nbr :: vis) (q ++ [nbr])
        (if is_tgt nbr then res + 1 else res)
      refine ⟨nbr :: add, ?_, ?_, ?_, ?_⟩
      · rw [nrtFold, if_neg hv, heq]
        have hcnt : (if is_tgt nbr then res + 1 else res) + add.countP is_tgt =
            res + (nbr :: add).countP is_tgt := by
          rw [List.countP_cons]
          by_cases ht : is_tgt nbr
          · simp [ht]
            omega
          · simp [ht]
        rw [hcnt]
        simp
      · refine List.nodup_cons.mpr ⟨?_, hnd⟩
        intro hmem
        exact ((hsub nbr hmem).2) (List.mem_cons_self _ _)
      · intro x hx
        rcases List.mem_cons.mp hx with rfl | hx'
        · exact ⟨List.mem_cons_self _ _, hv⟩
        · obtain ⟨h1, h2⟩ := hsub x hx'
          exact ⟨List.mem_cons_of_mem _ h1, fun hxv => h2 (List.mem_cons_of_mem _ hxv)⟩
      · intro x hx
        rcases List.mem_cons.mp hx with rfl | hx'
        · exact Or.inr (List.mem_cons_self _ _)
        · rcases hcov x hx' with hv' | ha'
          · rcases List.mem_cons.mp hv' with rfl | hv''
            · exact Or.inr (List.mem_cons_self _ _)
            · exact Or.inl hv''
          · exact Or.inr (List.mem_cons_of_mem _ ha')

lemma nrtLoop_spec [Fintype α] {f : α → List α} {is_tgt : α → Bool} {src : α} :
    ∀ (fuel : Nat) (vis q : List α) (res : Nat), NrtInv f is_tgt src vis q res →
      2 * (Fintype.card α - vis.length) + q.length < fuel →
      ∃ r, nrtLoop is_tgt f fuel vis q res = some r ∧
        r = Set.ncard {v | Relation.ReflTransGen (ERel f) src v ∧ is_tgt v = true} := by
  intro fuel
  induction fuel with
  | zero => intro vis q res _ hf; omega
  | succ n ih =>
    intro vis q res hinv hf
    match q with
    | [] =>
      refine ⟨res, by rw [nrtLoop], ?_⟩
      have hset : {v | Relation.ReflTransGen (ERel f) src v ∧ is_tgt v = true} =
          ↑(vis.filter is_tgt).toFinset := by
        ext v
        simp only [Set.mem_setOf_eq, Finset.coe_sort_coe, List.coe_toFinset,
          Set.mem_setOf_eq, List.mem_filter]
        constructor
        · rintro ⟨hr, ht⟩
          refine ⟨?_, ht⟩
          refine reach_mem_of_closed hinv.srcMem ?_ v hr
          intro x hx y hy
          rcases hinv.closed x hx with hq | hcl
          · simp at hq
          · exact hcl y hy
        · rintro ⟨hv, ht⟩
          exact ⟨hinv.reach v hv, ht⟩
      rw [hset, Set.ncard_coe_Finset, List.card_toFinset,
        List.Nodup.dedup (hinv.nodup.filter is_tgt), hinv.count,
        List.countP_eq_length_filter]
    | u :: q' =>
      obtain ⟨add, heq, hnd, hsub, hcov⟩ := nrtFold_spec is_tgt (f u) vis q' res
      rw [nrtLoop, heq]
      have hvnd : (add.reverse ++ vis).Nodup := by
        rw [List.nodup_append]
        refine ⟨List.nodup_reverse.mpr hnd, hinv.nodup, ?_⟩
        intro x hx hxv
        exact (hsub x (List.mem_reverse.mp hx)).2 hxv
      have hulen : (add.reverse ++ vis).length ≤ Fintype.card α :=
        hvnd.length_le_card
      have hreach : ∀ v ∈ add.reverse ++ vis, Relation.ReflTransGen (ERel f) src v := by
        intro v hv
        rcases List.mem_append.mp hv with ha | hv'
        · have hu : u ∈ vis := hinv.qSub u (List.mem_cons_self _ _)
          exact (hinv.reach u hu).tail ((hsub v (List.mem_reverse.mp ha)).1)
        · exact hinv.reach v hv'
      have hinv' : NrtInv f is_tgt src (add.reverse ++ vis) (q' ++ add)
          (res + add.countP is_tgt) := by
        refine ⟨hvnd, List.mem_append.mpr (Or.inr hinv.srcMem), ?_, ?_, hreach, ?_⟩
        · intro v hv
          rcases List.mem_append.mp hv with hq | ha
          · exact List.mem_append.mpr (Or.inr (hinv.qSub v (List.mem_cons_of_mem _ hq)))
          · exact List.mem_append.mpr (Or.inl (List.mem_reverse.mpr ha))
        · rw [hinv.count, List.countP_append, List.countP_reverse]
          omega
        · intro v hv
          rcases List.mem_append.mp hv with ha | hv'
          · exact Or.inl (List.mem_append.mpr (Or.inr (List.mem_reverse.mp ha)))
          · rcases hinv.closed v hv' with hq | hcl
            · rcases List.mem_cons.mp hq with rfl | hq'
              · right
                intro y hy
                rcases hcov y hy with h1 | h2
                · exact List.mem_append.mpr (Or.inr h1)
                · exact List.mem_append.mpr (Or.inl (List.mem_reverse.mpr h2))
              · exact Or.inl (List.mem_append.mpr (Or.inl hq'))
            · exact Or.inr fun y hy => List.mem_append.mpr (Or.inr (hcl y hy))
      refine ih _ _ _ hinv' ?_
      simp only [List.length_append, List.length_reverse, List.length_cons] at hulen hf ⊢
      omega

/-- The result of num_reachable_targets with any target predicate is the
number of reachable target vertices; stated over the loop for reuse. -/
lemma num_reachable_targets_eq [Fintype α] (src : α) (is_tgt : α → Bool) (f : α → List α) :
    num_reachable_targets src is_tgt f =
      Set.ncard {v | Relation.ReflTransGen (ERel f) src v ∧ is_tgt v = true} := by
  have hcard : 1 ≤ Fintype.card α := Fintype.card_pos_iff.mpr ⟨src⟩
  have hinv : NrtInv f is_tgt src [src] [src] (if is_tgt src then 1 else 0) := by
    refine ⟨by simp, by simp, by simp, ?_, ?_, ?_⟩
    · by_cases h : is_tgt src <;> simp [List.countP_cons, h]
    · intro v hv
      simp at hv
      subst hv
      exact Relation.ReflTransGen.refl
    · intro v hv
      simp at hv
      subst hv
      simp
  obtain ⟨r, hr, hval⟩ := nrtLoop_spec (2 * Fintype.card α) [src] [src]
    (if is_tgt src then 1 else 0) hinv (by simp; omega)
  rw [num_reachable_targets, hr]
  exact hval

/-! The inner loop of exists_path. -/

lemma epFold_spec (tgt : α) :
    ∀ (nbrs vis q : List α),
      (∃ add : List α, epFold tgt nbrs vis q = Sum.inl (add.reverse ++ vis, q ++ add) ∧
        add.Nodup ∧ (∀ x ∈ add, x ∈ nbrs ∧ x ∉ vis ∧ x ≠ tgt) ∧
        (∀ x ∈ nbrs, x ∈ vis ∨ x ∈ add)) ∨
      (epFold tgt nbrs vis q = Sum.inr true ∧ tgt ∈ nbrs) := by
  intro nbrs
  induction nbrs with
  | nil =>
    intro vis q
    exact Or.inl ⟨[], by simp [epFold], by simp, by simp, by simp⟩
  | cons nbr rest ih =>
    intro vis q
    by_cases hv : nbr ∈ vis
    · rcases ih vis q with ⟨add, heq, hnd, hsub, hcov⟩ | ⟨heq, hmem⟩
      · refine Or.inl ⟨add, ?_, hnd, ?_, ?_⟩
        · rw [epFold, if_pos hv]
          exact heq
        · exact fun x hx => ⟨List.mem_cons_of_mem _ (hsub x hx).1, (hsub x hx).2.1, (hsub x hx).2.2⟩
        · intro x hx
          rcases List.mem_cons.mp hx with rfl | hx'
          · exact Or.inl hv
          · exact hcov x hx'
      · refine Or.inr ⟨?_, List.mem_cons_of_mem _ hmem⟩
        rw [epFold, if_pos hv]
        exact heq
    · by_cases ht : nbr = tgt
      · subst ht
        refine Or.inr ⟨?_, List.mem_cons_self _ _⟩
        rw [epFold, if_neg hv, if_pos rfl]
      · rcases ih (nbr :: vis) (q ++ [nbr]) with ⟨add, heq, hnd, hsub, hcov⟩ | ⟨heq, hmem⟩
        · refine Or.inl ⟨nbr :: add, ?_, ?_, ?_, ?_⟩
          · rw [epFold, if_neg hv, if_neg ht, heq]
            simp
          · refine List.nodup_cons.mpr ⟨?_, hnd⟩
            intro hmem
            exact ((hsub nbr hmem).2.1) (List.mem_cons_self _ _)
          · intro x hx
            rcases List.mem_cons.mp hx with rfl | hx'
            · exact ⟨List.mem_cons_self _ _, hv, ht⟩
            · obtain ⟨h1, h2, h3⟩ := hsub x hx'
              exact ⟨List.mem_cons_of_mem _ h1, fun hxv => h2 (List.mem_cons_of_mem _ hxv), h3⟩
          · intro x hx
            rcases List.mem_cons.mp hx with rfl | hx'
            · exact Or.inr (List.mem_cons_self _ _)
            · rcases hcov x hx' with hv' | ha'
              · rcases List.mem_cons.mp hv' with rfl | hv''
                · exact Or.inr (List.mem_cons_self _ _)
                · exact Or.inl hv''
              · exact Or.inr (List.mem_cons_of_mem _ ha')
        · refine Or.inr ⟨?_, List.mem_cons_of_mem _ hmem⟩
          rw [epFold, if_neg hv, if_neg ht]
          exact heq

lemma epLoop_spec [Fintype α] {f : α → List α} {src tgt : α} :
    ∀ (fuel : Nat) (vis q : List α), EpInv f src tgt vis q →
      2 * (Fintype.card α - vis.length) + q.length < fuel →
      ∃ b, epLoop tgt f fuel vis q = some b ∧
        (b = true ↔ Relation.ReflTransGen (ERel f) src tgt) := by
  intro fuel
  induction fuel with
  | zero => intro vis q _ hf; omega
  | succ n ih =>
    intro vis q hinv hf
    match q with
    | [] =>
      refine ⟨false, by rw [epLoop], ?_⟩
      simp only [Bool.false_eq_true, false_iff]
      intro hr
      refine hinv.tgtOut (reach_mem_of_closed hinv.srcMem ?_ tgt hr)
      intro x hx y hy
      rcases hinv.closed x hx with hq | hcl
      · simp at hq
      · exact hcl y hy
    | u :: q' =>
      have hu : u ∈ vis := hinv.qSub u (List.mem_cons_self _ _)
      rcases epFold_spec tgt (f u) vis q' with ⟨add, heq, hnd, hsub, hcov⟩ | ⟨heq, hmem⟩
      · rw [epLoop, heq]
        have hvnd : (add.reverse ++ vis).Nodup := by
          rw [List.nodup_append]
          refine ⟨List.nodup_reverse.mpr hnd, hinv.nodup, ?_⟩
          intro x hx hxv
          exact (hsub x (List.mem_reverse.mp hx)).2.1 hxv
        have hulen : (add.reverse ++ vis).length ≤ Fintype.card α :=
          hvnd.length_le_card
        have hinv' : EpInv f src tgt (add.reverse ++ vis) (q' ++ add) := by
          refine ⟨hvnd, List.mem_append.mpr (Or.inr hinv.srcMem), ?_, ?_, ?_, ?_⟩
          · intro v hv
            rcases List.mem_append.mp hv with hq | ha
            · exact List.mem_append.mpr (Or.inr (hinv.qSub v (List.mem_cons_of_mem _ hq)))
            · exact List.mem_append.mpr (Or.inl (List.mem_reverse.mpr ha))
          · intro hmem
            rcases List.mem_append.mp hmem with ha | hv'
            · exact (hsub tgt (List.mem_reverse.mp ha)).2.2 rfl
            · exact hinv.tgtOut hv'
          · intro v hv
            rcases List.mem_append.mp hv with ha | hv'
            · exact (hinv.reach u hu).tail ((hsub v (List.mem_reverse.mp ha)).1)
            · exact hinv.reach v hv'
          · intro v hv
            rcases List.mem_append.mp hv with ha | hv'
            · exact Or.inl (List.mem_append.mpr (Or.inr (List.mem_reverse.mp ha)))
            · rcases hinv.closed v hv' with hq | hcl
              · rcases List.mem_cons.mp hq with rfl | hq'
                · right
                  intro y hy
                  rcases hcov y hy with h1 | h2
                  · exact List.mem_append.mpr (Or.inr h1)
                  · exact List.mem_append.mpr (Or.inl (List.mem_reverse.mpr h2))
                · exact Or.inl (List.mem_append.mpr (Or.inl hq'))
              · exact Or.inr fun y hy => List.mem_append.mpr (Or.inr (hcl y hy))
        refine ih _ _ hinv' ?_
        simp only [List.length_append, List.length_reverse, List.length_cons] at hulen hf ⊢
        omega
      · rw [epLoop, heq]
        refine ⟨true, rfl, ?_⟩
        simp only [true_iff]
        exact (hinv.reach u hu).tail hmem

/-- exists_path decides reachability. -/
lemma exists_path_iff [Fintype α] (src tgt : α) (f : α → List α) :
    exists_path src tgt f = true ↔ Relation.ReflTransGen (ERel f) src tgt := by
  by_cases hst : src = tgt
  · subst hst
    have hT : exists_path src src f = true := by simp [exists_path]
    rw [hT]
    simp only [true_iff]
    exact Relation.ReflTransGen.refl
  · have hinv : EpInv f src tgt [src] [src] := by
      refine ⟨by simp, by simp, by simp, by simp [Ne.symm hst], ?_, ?_⟩
      · intro v hv
        simp at hv
        subst hv
        exact Relation.ReflTransGen.refl
      · intro v hv
        simp at hv
        subst hv
        simp
    have hcard : 1 ≤ Fintype.card α := Fintype.card_pos_iff.mpr ⟨src⟩
    obtain ⟨b, hb, hiff⟩ := epLoop_spec (2 * Fintype.card α) [src] [src] hinv (by simp; omega)
    rw [exists_path, if_neg hst, hb]
    simpa using hiff

/-! Equation and inversion lemmas for the num_of_paths recursion. -/

lemma numOfPathsGo_succ_inv {is_tgt : α → Bool} {f : α → List α} {fuel : Nat}
    {nbr : α} {rest : List α} {n : Nat}
    (h : numOfPathsGo is_tgt f (fuel + 1) (nbr :: rest) = some n) :
    ∃ a b, (if is_tgt nbr then some 1 else numOfPathsGo is_tgt f fuel (f nbr)) = some a ∧
      numOfPathsGo is_tgt f fuel rest = some b ∧ n = a + b := by
  rw [numOfPathsGo] at h
  split at h
  · next a b ha hb =>
    injection h with h
    exact ⟨a, b, ha, hb, h.symm⟩
  · exact absurd h (by simp)

lemma numOfPathsGo_succ_eq {is_tgt : α → Bool} {f : α → List α} {fuel : Nat}
    {nbr : α} {rest : List α} {a b : Nat}
    (ha : (if is_tgt nbr then some 1 else numOfPathsGo is_tgt f fuel (f nbr)) = some a)
    (hb : numOfPathsGo is_tgt f fuel rest = some b) :
    numOfPathsGo is_tgt f (fuel + 1) (nbr :: rest) = some (a + b) := by
  rw [numOfPathsGo, ha, hb]

lemma numOfPathsGo_mono {is_tgt : α → Bool} {f : α → List α} :
    ∀ {fuel fuel' : Nat} {l : List α} {n : Nat}, fuel ≤ fuel' →
      numOfPathsGo is_tgt f fuel l = some n → numOfPathsGo is_tgt f fuel' l = some n := by
  intro fuel
  induction fuel with
  | zero => intro fuel' l n _ h; simp [numOfPathsGo] at h
  | succ m ih =>
    intro fuel' l n hle h
    obtain ⟨k, rfl⟩ : ∃ k, fuel' = k + 1 := ⟨fuel' - 1, by omega⟩
    cases l with
    | nil =>
      rw [numOfPathsGo] at h ⊢
      exact h
    | cons nbr rest =>
      obtain ⟨a, b, ha, hb, rfl⟩ := numOfPathsGo_succ_inv h
      refine numOfPathsGo_succ_eq ?_ (ih (by omega) hb)
      by_cases ht : is_tgt nbr
      · rw [if_pos ht] at ha ⊢
        exact ha
      · rw [if_neg ht] at ha ⊢
        exact ih (by omega) ha

/-! Decomposition lemmas for terminating walks. -/

lemma termWalkFrom_nil {f : α → List α} {is_tgt : α → Bool} {w : List α} :
    ¬ TermWalkFrom f is_tgt [] w := by
  rintro ⟨x, w', rfl, hx, -⟩
  simp at hx

lemma termWalkFrom_cons_iff {f : α → List α} {is_tgt : α → Bool} {nbr : α}
    {rest : List α} {w : List α} :
    TermWalkFrom f is_tgt (nbr :: rest) w ↔
      TermWalkFrom f is_tgt [nbr] w ∨ TermWalkFrom f is_tgt rest w := by
  constructor
  · rintro ⟨x, w', rfl, hx, hch, hdrop, ht⟩
    rcases List.mem_cons.mp hx with rfl | hx'
    · exact Or.inl ⟨x, w', rfl, by simp, hch, hdrop, ht⟩
    · exact Or.inr ⟨x, w', rfl, hx', hch, hdrop, ht⟩
  · rintro (⟨x, w', rfl, hx, hch, hdrop, ht⟩ | ⟨x, w', rfl, hx, hch, hdrop, ht⟩)
    · simp at hx
      subst hx
      exact ⟨x, w', rfl, List.mem_cons_self _ _, hch, hdrop, ht⟩
    · exact ⟨x, w', rfl, List.mem_cons_of_mem _ hx, hch, hdrop, ht⟩

lemma termWalkFrom_single_tgt {f : α → List α} {is_tgt : α → Bool} {nbr : α}
    {w : List α} (ht : is_tgt nbr = true) :
    TermWalkFrom f is_tgt [nbr] w ↔ w = [nbr] := by
  constructor
  · rintro ⟨x, w', rfl, hx, hch, hdrop, t, hlast, htt⟩
    simp at hx
    subst hx
    cases w' with
    | nil => rfl
    | cons y ys =>
      exfalso
      have hx0 : is_tgt x = false := hdrop x (by rw [List.dropLast_cons₂]; exact List.mem_cons_self _ _)
      rw [ht] at hx0
      exact absurd hx0 (by simp)
  · rintro rfl
    exact ⟨nbr, [], rfl, by simp, List.Chain.nil, by simp, nbr, by simp, ht⟩

lemma termWalkFrom_single_not_tgt {f : α → List α} {is_tgt : α → Bool} {nbr : α}
    {w : List α} (ht : is_tgt nbr = false) :
    TermWalkFrom f is_tgt [nbr] w ↔
      ∃ w', w = nbr :: w' ∧ TermWalkFrom f is_tgt (f nbr) w' := by
  constructor
  · rintro ⟨x, w', rfl, hx, hch, hdrop, t, hlast, htt⟩
    simp at hx
    subst hx
    refine ⟨w', rfl, ?_⟩
    cases w' with
    | nil =>
      exfalso
      simp at hlast
      subst hlast
      rw [ht] at htt
      exact absurd htt (by simp)
    | cons y ys =>
      rw [List.chain_cons] at hch
      refine ⟨y, ys, rfl, hch.1, hch.2, ?_, ?_⟩
      · intro v hv
        exact hdrop v (by rw [List.dropLast_cons₂]; exact List.mem_cons_of_mem _ hv)
      · exact ⟨t, by rw [List.getLast?_cons_cons] at hlast; exact hlast, htt⟩
  · rintro ⟨w', rfl, y, ys, rfl, hy, hch, hdrop, t, hlast, htt⟩
    refine ⟨nbr, y :: ys, rfl, by simp, ?_, ?_, ?_⟩
    · rw [List.chain_cons]
      exact ⟨hy, hch⟩
    · intro v hv
      rw [List.dropLast_cons₂] at hv
      rcases List.mem_cons.mp hv with rfl | hv'
      · exact ht
      · exact hdrop v hv'
    · exact ⟨t, by rw [List.getLast?_cons_cons]; exact hlast, htt⟩

lemma isTermWalk_iff_termWalkFrom {f : α → List α} {is_tgt : α → Bool} {src : α}
    {w : List α} :
    IsTermWalk f is_tgt src w ↔ TermWalkFrom f is_tgt (f src) w := by
  constructor
  · rintro ⟨hne, hch, hdrop, ht⟩
    cases w with
    | nil => exact absurd rfl hne
    | cons x w' =>
      rw [List.chain_cons] at hch
      exact ⟨x, w', rfl, hch.1, hch.2, hdrop, ht⟩
  · rintro ⟨x, w', rfl, hx, hch, hdrop, ht⟩
    refine ⟨by simp, ?_, hdrop, ht⟩
    rw [List.chain_cons]
    exact ⟨hx, hch⟩

/-- Main counting lemma: whenever the worklist recursion of num_of_paths
returns a value, that value is the cardinality of the set of terminating
walks starting in the worklist. -/
lemma numOfPathsGo_count {is_tgt : α → Bool} {f : α → List α}
    (hN : ∀ v, (f v).Nodup) :
    ∀ (fuel : Nat) (nbrs : List α) (n : Nat), nbrs.Nodup →
      numOfPathsGo is_tgt f fuel nbrs = some n →
      ∃ s : Finset (List α), (∀ w, w ∈ s ↔ TermWalkFrom f is_tgt nbrs w) ∧ s.card = n := by
  intro fuel
  induction fuel with
  | zero => intro nbrs n _ h; simp [numOfPathsGo] at h
  | succ m ih =>
    intro nbrs n hnd h
    cases nbrs with
    | nil =>
      rw [numOfPathsGo] at h
      injection h with h
      subst h
      exact ⟨∅, fun w => by simp [termWalkFrom_nil], by simp⟩
    | cons nbr rest =>
      obtain ⟨a, b, ha, hb, rfl⟩ := numOfPathsGo_succ_inv h
      obtain ⟨s₂, hs₂, hcard₂⟩ := ih rest b (List.Nodup.of_cons hnd) hb
      have hnr : nbr ∉ rest := (List.nodup_cons.mp hnd).1
      cases ht : is_tgt nbr with
      | true =>
        rw [ht, if_pos rfl] at ha
        injection ha with ha
        subst ha
        have hnotmem : [nbr] ∉ s₂ := by
          intro hmem
          obtain ⟨x, w', hw, hx, -⟩ := (hs₂ _).mp hmem
          injection hw with h1 h2
          subst h1
          exact hnr hx
        refine ⟨insert [nbr] s₂, ?_, ?_⟩
        · intro w
          rw [Finset.mem_insert, termWalkFrom_cons_iff, termWalkFrom_single_tgt ht, hs₂]
        · rw [Finset.card_insert_of_not_mem hnotmem, hcard₂]
          omega
      | false =>
        rw [if_neg (by simp [ht])] at ha
        obtain ⟨s₁, hs₁, hcard₁⟩ := ih (f nbr) a (hN nbr) ha
        have hdisj : Disjoint (s₁.image (nbr :: ·)) s₂ := by
          rw [Finset.disjoint_left]
          intro w hw1 hw2
          obtain ⟨w', hw', hww⟩ := Finset.mem_image.mp hw1
          obtain ⟨x, w'', hw'', hx, -⟩ := (hs₂ _).mp hw2
          rw [← hww] at hw''
          injection hw'' with h1 h2
          subst h1
          exact hnr hx
        refine ⟨s₁.image (nbr :: ·) ∪ s₂, ?_, ?_⟩
        · intro w
          rw [Finset.mem_union, termWalkFrom_cons_iff, hs₂,
            termWalkFrom_single_not_tgt ht]
          constructor
          · rintro (h1 | h2)
            · obtain ⟨w', hw', hww⟩ := Finset.mem_image.mp h1
              exact Or.inl ⟨w', hww.symm, (hs₁ w').mp hw'⟩
            · exact Or.inr h2
          · rintro (⟨w', rfl, hw'⟩ | h2)
            · exact Or.inl (Finset.mem_image.mpr ⟨w', (hs₁ w').mpr hw', rfl⟩)
            · exact Or.inr h2
        · rw [Finset.card_union_of_disjoint hdisj,
            Finset.card_image_of_injective _ (fun x y h => List.tail_eq_of_cons_eq h), hcard₁, hcard₂]

/-- Counting specification of num_of_paths via IsTermWalk. -/
lemma num_of_paths_count {is_tgt : α → Bool} {f : α → List α} {fuel : Nat}
    {src : α} {n : Nat} (hN : ∀ v, (f v).Nodup)
    (h : num_of_paths fuel src is_tgt f = some n) :
    ∃ s : Finset (List α), (∀ w, w ∈ s ↔ IsTermWalk f is_tgt src w) ∧ s.card = n := by
  obtain ⟨s, hs, hcard⟩ := numOfPathsGo_count hN fuel (f src) n (hN src) h
  exact ⟨s, fun w => by rw [hs, isTermWalk_iff_termWalkFrom], hcard⟩

/-! Auxiliary lemmas for the shortest_path development. -/

lemma lookupA_cons_isSome {vis : List (α × β)} {x a : α} (b : β)
    (h : (lookupA vis x).isSome) : (lookupA ((a, b) :: vis) x).isSome := by
  by_cases hx : x = a
  · subst hx
    rw [lookupA_cons_self]
    rfl
  · rw [lookupA_cons_ne _ _ hx]
    exact h

lemma chainFrom_insert {vis : List (α × Option α)} {a : α} (pd : Option α)
    (ha : lookupA vis a = none) {v : α} {l : List α}
    (h : chainFrom vis vis.length v = some l) :
    chainFrom ((a, pd) :: vis) ((a, pd) :: vis).length v = some l :=
  chainFrom_mono (by simp) (chainFrom_cons_fresh pd (lookupA_eq_none_iff.mp ha) h)

/-- Any walk from the source to an unvisited vertex has at least d + 2
vertices, where d is the distance of the vertex currently being expanded. -/
lemma sp_cross {f : α → List α} {src tgt u : α} {d : Nat}
    {vis : List (α × Option α)} {q : List (α × Nat)} {pend : List α}
    (hm : SPMid f src tgt u d vis q pend) {b : α} (hb : lookupA vis b = none) :
    ∀ l, WalkFT f src b l → d + 2 ≤ l.length := by
  intro l hl
  obtain ⟨x, lx, hwx, hPx, ⟨y, hxy, hPy⟩, hlen⟩ :=
    walk_cross (P := fun z => (lookupA vis z).isSome) hl
      (by show (lookupA vis src).isSome = true; rw [hm.srcRoot]; rfl)
      (by show ¬ (lookupA vis b).isSome = true; rw [hb]; simp)
  rcases hm.closed x hPx with ⟨dx, hdx⟩ | rfl | hcl
  · have h1 := hm.qMin _ hdx lx hwx
    have h2 := (hm.qBound _ hdx).1
    omega
  · have h1 := hm.uMin lx hwx
    omega
  · exact absurd (hcl y hxy) hPy

/-- One full pass over the pending neighbours of the popped vertex: either
the state is updated and the loop invariant restored, or the target was just
discovered and the reconstructed path is a shortest path. -/
lemma spNbrs_spec {f : α → List α} {src tgt u : α} {d : Nat} :
    ∀ (pend : List α) (vis : List (α × Option α)) (q : List (α × Nat)),
      SPMid f src tgt u d vis q pend →
      (∃ vis' q', spNbrs f tgt u d pend vis q = Sum.inl (vis', q') ∧
        SPInv f src tgt vis' q' ∧
        vis'.length + q.length = vis.length + q'.length ∧ vis.length ≤ vis'.length) ∨
      (∃ p, spNbrs f tgt u d pend vis q = Sum.inr (some p) ∧ WalkFT f src tgt p ∧
        p.length = d + 2 ∧ ∀ l, WalkFT f src tgt l → p.length ≤ l.length) := by
  intro pend
  induction pend with
  | nil =>
    intro vis q hm
    left
    refine ⟨vis, q, rfl, ?_, by omega, le_refl _⟩
    refine ⟨hm.nodup, hm.srcRoot, hm.tgtOut, hm.qVis, hm.qChain, hm.qMin, hm.qPair, ?_⟩
    intro v hv
    rcases hm.closed v hv with hq | rfl | hcl
    · exact Or.inl hq
    · right
      intro y hy
      rcases hm.uPend y hy with h1 | h2
      · exact h1
      · simp at h2
    · exact Or.inr hcl
  | cons nbr rest ih =>
    intro vis q hm
    cases hv : lookupA vis nbr with
    | some pd =>
      have hstep : spNbrs f tgt u d (nbr :: rest) vis q = spNbrs f tgt u d rest vis q := by
        rw [spNbrs, hv]
      rw [hstep]
      refine ih vis q ?_
      refine ⟨hm.nodup, hm.srcRoot, hm.tgtOut, hm.qVis, hm.qChain, hm.qMin, hm.qPair,
        hm.qBound, hm.uVis, hm.uChain, hm.uMin, ?_, ?_, hm.closed⟩
      · intro y hy
        rcases hm.uPend y hy with h1 | h2
        · exact Or.inl h1
        · rcases List.mem_cons.mp h2 with rfl | h3
          · exact Or.inl (by rw [hv]; rfl)
          · exact Or.inr h3
      · exact fun y hy => hm.pendSub y (List.mem_cons_of_mem _ hy)
    | none =>
      obtain ⟨lu, hluc, hlul, hluw⟩ := hm.uChain
      have hnbru : ERel f u nbr := hm.pendSub nbr (List.mem_cons_self _ _)
      have hchain' : chainFrom ((nbr, some u) :: vis) ((nbr, some u) :: vis).length nbr =
          some (lu ++ [nbr]) := by
        have h1 : chainFrom ((nbr, some u) :: vis) vis.length u = some lu :=
          chainFrom_cons_fresh _ (lookupA_eq_none_iff.mp hv) hluc
        have h2 : lookupA ((nbr, some u) :: vis) nbr = some (some u) := lookupA_cons_self _ _ _
        simp only [List.length_cons]
        exact chainFrom_succ_parent h2 h1
      have hwalk' : WalkFT f src nbr (lu ++ [nbr]) := walkFT_concat hluw hnbru
      have hmin' : ∀ l, WalkFT f src nbr l → d + 2 ≤ l.length := sp_cross hm hv
      by_cases htgt : nbr = tgt
      · subst htgt
        right
        have hstep : spNbrs f nbr u d (nbr :: rest) vis q =
            Sum.inr (chainFrom ((nbr, some u) :: vis) ((nbr, some u) :: vis).length nbr) := by
          rw [spNbrs, hv]
          simp
        refine ⟨lu ++ [nbr], ?_, hwalk', by simp [hlul], ?_⟩
        · rw [hstep, hchain']
        · intro l hl
          have := hmin' l hl
          simp [hlul]
          omega
      · have hstep : spNbrs f tgt u d (nbr :: rest) vis q =
            spNbrs f tgt u d rest ((nbr, some u) :: vis) (q ++ [(nbr, d + 1)]) := by
          rw [spNbrs, hv]
          simp [htgt]
        rw [hstep]
        have hnodup' : (((nbr, some u) :: vis).map Prod.fst).Nodup := by
          simp only [List.map_cons]
          exact List.nodup_cons.mpr ⟨lookupA_eq_none_iff.mp hv, hm.nodup⟩
        have hmid' : SPMid f src tgt u d ((nbr, some u) :: vis) (q ++ [(nbr, d + 1)]) rest := by
          have hsrcne : src ≠ nbr := by
            intro h
            rw [← h, hm.srcRoot] at hv
            exact absurd hv (by simp)
          have htgtne : tgt ≠ nbr := fun h => htgt h.symm
          refine ⟨hnodup', ?_, ?_, ?_, ?_, ?_, ?_, ?_, ?_, ?_, ?_, ?_, ?_, ?_⟩
          · rw [lookupA_cons_ne _ _ hsrcne]
            exact hm.srcRoot
          · rw [lookupA_cons_ne _ _ htgtne]
            exact hm.tgtOut
          · intro e he
            rcases List.mem_append.mp he with h1 | h2
            · exact lookupA_cons_isSome _ (hm.qVis e h1)
            · simp at h2
              subst h2
              rw [lookupA_cons_self]
              rfl
          · intro e he
            rcases List.mem_append.mp he with h1 | h2
            · obtain ⟨l, hc, hll, hw⟩ := hm.qChain e h1
              exact ⟨l, chainFrom_insert _ hv hc, hll, hw⟩
            · simp at h2
              subst h2
              exact ⟨lu ++ [nbr], hchain', by simp [hlul], hwalk'⟩
          · intro e he
            rcases List.mem_append.mp he with h1 | h2
            · exact hm.qMin e h1
            · simp at h2
              subst h2
              intro l hl
              have := hmin' l hl
              omega
          · rw [List.pairwise_append]
            refine ⟨hm.qPair, by simp, ?_⟩
            intro a ha b hb
            simp at hb
            subst hb
            have := hm.qBound a ha
            simp
            omega
          · intro e he
            rcases List.mem_append.mp he with h1 | h2
            · exact hm.qBound e h1
            · simp at h2
              subst h2
              simp
          · exact lookupA_cons_isSome _ hm.uVis
          · exact ⟨lu, chainFrom_insert _ hv hluc, hlul, hluw⟩
          · exact hm.uMin
          · intro y hy
            rcases hm.uPend y hy with h1 | h2
            · exact Or.inl (lookupA_cons_isSome _ h1)
            · rcases List.mem_cons.mp h2 with rfl | h3
              · exact Or.inl (by rw [lookupA_cons_self]; rfl)
              · exact Or.inr h3
          · exact fun y hy => hm.pendSub y (List.mem_cons_of_mem _ hy)
          · intro v hvv
            by_cases hvn : v = nbr
            · subst hvn
              exact Or.inl ⟨d + 1, List.mem_append.mpr (Or.inr (by simp))⟩
            · rw [lookupA_cons_ne _ _ hvn] at hvv
              rcases hm.closed v hvv with ⟨dd, hdd⟩ | rfl | hcl
              · exact Or.inl ⟨dd, List.mem_append.mpr (Or.inl hdd)⟩
              · exact Or.inr (Or.inl rfl)
              · exact Or.inr (Or.inr fun y hy => lookupA_cons_isSome _ (hcl y hy))
        rcases ih _ _ hmid' with ⟨vis', q', heq, hinv, hlen, hge⟩ | ⟨p, heq, hw, hpl, hmin⟩
        · left
          refine ⟨vis', q', heq, hinv, ?_, ?_⟩
          · simp only [List.length_cons, List.length_append] at hlen ⊢
            simp at hlen
            omega
          · simp only [List.length_cons] at hge
            omega
        · right
          exact ⟨p, heq, hw, hpl, hmin⟩

lemma spLoop_spec [Fintype α] {f : α → List α} {src tgt : α} :
    ∀ (fuel : Nat) (vis : List (α × Option α)) (q : List (α × Nat)),
      SPInv f src tgt vis q →
      2 * (Fintype.card α - vis.length) + q.length < fuel →
      (spLoop f tgt fuel vis q = none → ¬ Relation.ReflTransGen (ERel f) src tgt) ∧
      (∀ p, spLoop f tgt fuel vis q = some p →
        WalkFT f src tgt p ∧ ∀ l, WalkFT f src tgt l → p.length ≤ l.length) := by
  intro fuel
  induction fuel with
  | zero => intro vis q _ hf; omega
  | succ n ih =>
    intro vis q hinv hf
    match q with
    | [] =>
      constructor
      · intro _ hreach
        have hmem : ∀ w, Relation.ReflTransGen (ERel f) src w → (lookupA vis w).isSome := by
          intro w h
          induction h with
          | refl => rw [hinv.srcRoot]; rfl
          | tail h1 e ihh =>
            rcases hinv.closed _ ihh with ⟨dd, hdd⟩ | hcl
            · simp at hdd
            · exact hcl _ e
        have htt := hmem tgt hreach
        rw [hinv.tgtOut] at htt
        exact absurd htt (by simp)
      · intro p hp
        rw [spLoop] at hp
        exact absurd hp (by simp)
    | (u, d) :: q' =>
      have hpair := List.pairwise_cons.mp hinv.qPair
      have hmid : SPMid f src tgt u d vis q' (f u) := by
        refine ⟨hinv.nodup, hinv.srcRoot, hinv.tgtOut, ?_, ?_, ?_, hpair.2, ?_, ?_, ?_, ?_,
          fun y hy => Or.inr hy, fun y hy => hy, ?_⟩
        · exact fun e he => hinv.qVis e (List.mem_cons_of_mem _ he)
        · exact fun e he => hinv.qChain e (List.mem_cons_of_mem _ he)
        · exact fun e he => hinv.qMin e (List.mem_cons_of_mem _ he)
        · exact fun e he => hpair.1 e he
        · exact hinv.qVis _ (List.mem_cons_self _ _)
        · exact hinv.qChain _ (List.mem_cons_self _ _)
        · exact hinv.qMin _ (List.mem_cons_self _ _)
        · intro v hvv
          rcases hinv.closed v hvv with ⟨dd, hdd⟩ | hcl
          · rcases List.mem_cons.mp hdd with heq | hdd'
            · injection heq with h1 h2
              exact Or.inr (Or.inl h1)
            · exact Or.inl ⟨dd, hdd'⟩
          · exact Or.inr (Or.inr hcl)
      rcases spNbrs_spec (f u) vis q' hmid with
        ⟨vis', q'', heq, hinv', hlen, hge⟩ | ⟨p, heq, hw, hpl, hmin⟩
      · have hstep : spLoop f tgt (n + 1) vis ((u, d) :: q') = spLoop f tgt n vis' q'' := by
          simp only [spLoop, heq]
        rw [hstep]
        refine ih vis' q'' hinv' ?_
        have hcard : vis'.length ≤ Fintype.card α := by
          have h1 := hinv'.nodup.length_le_card
          simpa using h1
        simp only [List.length_cons] at hf
        omega
      · have hstep : spLoop f tgt (n + 1) vis ((u, d) :: q') = some p := by
          simp only [spLoop, heq]
        rw [hstep]
        constructor
        · intro h
          exact absurd h (by simp)
        · intro p' hp'
          injection hp' with hp'
          subst hp'
          exact ⟨hw, hmin⟩

lemma sp_init_inv [Fintype α] {f : α → List α} {src tgt : α} (hst : src ≠ tgt) :
    SPInv f src tgt [(src, none)] [(src, 0)] := by
  refine ⟨by simp, lookupA_cons_self _ _ _, ?_, ?_, ?_, ?_, by simp, ?_⟩
  · rw [lookupA_cons_ne _ _ (Ne.symm hst)]
    rfl
  · intro e he
    simp at he
    subst he
    rw [lookupA_cons_self]
    rfl
  · intro e he
    simp at he
    subst he
    refine ⟨[src], ?_, by simp, walkFT_singleton f src⟩
    have h1 : ([(src, (none : Option α))]).length = 0 + 1 := by simp
    rw [h1]
    exact chainFrom_succ_root (lookupA_cons_self _ _ _)
  · intro e he
    simp at he
    subst he
    intro l hl
    simp only [Nat.zero_add]
    have := walkFT_nonempty hl
    exact Nat.one_le_iff_ne_zero.mpr (by simpa using this)
  · intro v hvv
    by_cases hvs : v = src
    · subst hvs
      exact Or.inl ⟨0, by simp⟩
    · rw [lookupA_cons_ne _ _ hvs] at hvv
      exact absurd hvv (by simp [lookupA])

/-- Full behavioural specification of shortest_path: a none result means the
target is unreachable, and a some result is a walk from source to target of
minimal length. -/
lemma shortest_path_spec [Fintype α] (src tgt : α) (f : α → List α) :
    (shortest_path src tgt f = none → ¬ Relation.ReflTransGen (ERel f) src tgt) ∧
    (∀ p, shortest_path src tgt f = some p →
      WalkFT f src tgt p ∧ ∀ l, WalkFT f src tgt l → p.length ≤ l.length) := by
  by_cases hst : src = tgt
  · subst hst
    have hsome : shortest_path src src f = some [src] := by simp [shortest_path]
    rw [hsome]
    constructor
    · intro h
      exact absurd h (by simp)
    · intro p hp
      injection hp with hp
      subst hp
      refine ⟨walkFT_singleton f src, ?_⟩
      intro l hl
      have := walkFT_nonempty hl
      have h1 : 1 ≤ l.length := Nat.one_le_iff_ne_zero.mpr (by simpa using this)
      simpa using h1
  · have hcard : 1 ≤ Fintype.card α := Fintype.card_pos_iff.mpr ⟨src⟩
    have heq : shortest_path src tgt f =
        spLoop f tgt (2 * Fintype.card α) [(src, none)] [(src, 0)] := by
      rw [shortest_path, if_neg hst]
    rw [heq]
    exact spLoop_spec (2 * Fintype.card α) [(src, none)] [(src, 0)] (sp_init_inv hst)
      (by simp; omega)

/-! Termination of num_of_paths on graphs without reachable target-avoiding
cycles. -/

lemma nrel_cycle_tgt_false {f : α → List α} {is_tgt : α → Bool} {v : α}
    (h : Relation.TransGen (NRel f is_tgt) v v) : is_tgt v = false := by
  obtain ⟨w, -, hw⟩ := Relation.TransGen.tail'_iff.mp h
  exact hw.2

lemma nrel_to_ntrel {f : α → List α} {is_tgt : α → Bool} {a b : α}
    (h : Relation.TransGen (NRel f is_tgt) a b) (ha : is_tgt a = false) :
    Relation.TransGen (NTRel f is_tgt) a b := by
  induction h using Relation.TransGen.head_induction_on with
  | base hr => exact Relation.TransGen.single ⟨hr.1, ha, hr.2⟩
  | ih hr ht ihh =>
    next a' c _ =>
    exact Relation.TransGen.head ⟨hr.1, ha, hr.2⟩ (ihh hr.2)

lemma nrel_cycle_to_ntrel {f : α → List α} {is_tgt : α → Bool} {v : α}
    (h : Relation.TransGen (NRel f is_tgt) v v) :
    Relation.TransGen (NTRel f is_tgt) v v :=
  nrel_to_ntrel h (nrel_cycle_tgt_false h)

lemma numOfPathsGo_of_each {is_tgt : α → Bool} {f : α → List α} :
    ∀ (l : List α),
      (∀ nbr ∈ l, is_tgt nbr = true ∨ ∃ fuel, (numOfPathsGo is_tgt f fuel (f nbr)).isSome) →
      ∃ fuel, (numOfPathsGo is_tgt f fuel l).isSome := by
  intro l
  induction l with
  | nil => exact fun _ => ⟨1, by rw [numOfPathsGo]; rfl⟩
  | cons nbr rest ih =>
    intro h
    obtain ⟨f2, h2⟩ := ih fun x hx => h x (List.mem_cons_of_mem _ hx)
    obtain ⟨b, hb⟩ := Option.isSome_iff_exists.mp h2
    rcases h nbr (List.mem_cons_self _ _) with ht | ⟨f1, h1⟩
    · refine ⟨f2 + 1, ?_⟩
      rw [numOfPathsGo_succ_eq (a := 1) (by rw [if_pos ht]) hb]
      rfl
    · obtain ⟨a, ha⟩ := Option.isSome_iff_exists.mp h1
      by_cases ht : is_tgt nbr = true
      · refine ⟨max f1 f2 + 1, ?_⟩
        rw [numOfPathsGo_succ_eq (a := 1) (by rw [if_pos ht])
          (numOfPathsGo_mono (le_max_right f1 f2) hb)]
        rfl
      · refine ⟨max f1 f2 + 1, ?_⟩
        rw [numOfPathsGo_succ_eq (a := a)
          (by rw [if_neg ht]; exact numOfPathsGo_mono (le_max_left f1 f2) ha)
          (numOfPathsGo_mono (le_max_right f1 f2) hb)]
        rfl

lemma num_of_paths_total [Fintype α] {f : α → List α} {is_tgt : α → Bool} {src : α}
    (H : ∀ v, Relation.ReflTransGen (ERel f) src v →
      ¬ Relation.TransGen (NTRel f is_tgt) v v) :
    ∃ fuel n, num_of_paths fuel src is_tgt f = some n := by
  classical
  let S := {v : α // Relation.ReflTransGen (NRel f is_tgt) src v}
  let rS : S → S → Prop := fun b a => NRel f is_tgt a.1 b.1
  have hirr : ∀ x : S, ¬ Relation.TransGen rS x x := by
    intro x hx
    have h1 : Relation.TransGen (fun a b : α => NRel f is_tgt b a) x.1 x.1 :=
      Relation.TransGen.lift Subtype.val (fun a b h => h) hx
    have h2 : Relation.TransGen (NRel f is_tgt) x.1 x.1 :=
      Relation.transGen_swap.mp h1
    have h3 : Relation.ReflTransGen (ERel f) src x.1 :=
      Relation.ReflTransGen.mono (fun a b h => h.1) x.2
    exact H x.1 h3 (nrel_cycle_to_ntrel h2)
  have hwf : WellFounded rS := by
    haveI : IsTrans S (Relation.TransGen rS) := ⟨fun _ _ _ h1 h2 => h1.trans h2⟩
    haveI : IsIrrefl S (Relation.TransGen rS) := ⟨hirr⟩
    exact Subrelation.wf (fun {x y} h => Relation.TransGen.single h)
      (Finite.wellFounded_of_trans_of_irrefl (Relation.TransGen rS))
  have hmain : ∀ x : S, ∃ fuel, (numOfPathsGo is_tgt f fuel (f x.1)).isSome := by
    intro x
    induction x using WellFounded.induction hwf with
    | _ x ihx =>
      refine numOfPathsGo_of_each (f x.1) ?_
      intro nbr hmem
      cases ht : is_tgt nbr with
      | true => exact Or.inl rfl
      | false =>
        refine Or.inr (ihx ⟨nbr, x.2.tail ⟨hmem, ht⟩⟩ ⟨hmem, ht⟩)
  obtain ⟨fuel, hfuel⟩ := hmain ⟨src, Relation.ReflTransGen.refl⟩
  obtain ⟨n, hn⟩ := Option.isSome_iff_exists.mp hfuel
  exact ⟨fuel, n, hn⟩

/-! The parent pointers of the shortest_path search form a tree rooted at
the source. -/

lemma keyIdx_cons_self (a : α) (b : β) (l : List (α × β)) :
    keyIdx ((a, b) :: l) a = some 0 := by
  simp [keyIdx]

lemma keyIdx_cons_ne {x a : α} (b : β) (l : List (α × β)) (h : x ≠ a) :
    keyIdx ((a, b) :: l) x = (keyIdx l x).map (· + 1) := by
  simp [keyIdx, h]

lemma keyIdx_isSome_of_lookupA {l : List (α × β)} {x : α}
    (h : (lookupA l x).isSome) : ∃ j, keyIdx l x = some j := by
  induction l with
  | nil => simp [lookupA] at h
  | cons e rest ih =>
    obtain ⟨a, b⟩ := e
    by_cases hx : x = a
    · subst hx
      exact ⟨0, keyIdx_cons_self _ _ _⟩
    · rw [lookupA_cons_ne _ _ hx] at h
      obtain ⟨j, hj⟩ := ih h
      exact ⟨j + 1, by rw [keyIdx_cons_ne _ _ hx, hj]; rfl⟩

lemma keyIdx_mem_of_eq_some {l : List (α × β)} {x : α} {j : Nat}
    (h : keyIdx l x = some j) : x ∈ l.map Prod.fst := by
  induction l generalizing j with
  | nil => simp [keyIdx] at h
  | cons e rest ih =>
    obtain ⟨a, b⟩ := e
    by_cases hx : x = a
    · subst hx
      simp
    · rw [keyIdx_cons_ne _ _ hx] at h
      cases hk : keyIdx rest x with
      | none => rw [hk] at h; exact absurd h (by simp)
      | some j' =>
        simp only [List.map_cons, List.mem_cons]
        exact Or.inr (ih hk)

lemma treeInv_insert {f : α → List α} {src : α} {vis : List (α × Option α)}
    {u nbr : α} (ht : TreeInv f src vis)
    (hfresh : lookupA vis nbr = none) (hu : (lookupA vis u).isSome) :
    TreeInv f src ((nbr, some u) :: vis) := by
  have hukey : u ≠ nbr := by
    intro h
    rw [h, hfresh] at hu
    exact absurd hu (by simp)
  have hsrckey : src ≠ nbr := by
    intro h
    rw [← h, ht.srcRoot] at hfresh
    exact absurd hfresh (by simp)
  refine ⟨?_, ?_, ?_, ?_, ?_⟩
  · simp only [List.map_cons]
    exact List.nodup_cons.mpr ⟨lookupA_eq_none_iff.mp hfresh, ht.nodup⟩
  · rw [lookupA_cons_ne _ _ hsrckey]
    exact ht.srcRoot
  · intro v hv
    by_cases hvn : v = nbr
    · subst hvn
      rw [lookupA_cons_self] at hv
      exact absurd hv (by simp)
    · rw [lookupA_cons_ne _ _ hvn] at hv
      exact ht.rootUnique v hv
  · intro v p hv
    by_cases hvn : v = nbr
    · subst hvn
      rw [lookupA_cons_self] at hv
      injection hv with hv
      injection hv with hv
      subst hv
      obtain ⟨j, hj⟩ := keyIdx_isSome_of_lookupA hu
      refine ⟨0, j + 1, keyIdx_cons_self _ _ _, ?_, by omega⟩
      rw [keyIdx_cons_ne _ _ hukey, hj]
      rfl
    · rw [lookupA_cons_ne _ _ hvn] at hv
      obtain ⟨i, j, hvi, hpj, hij⟩ := ht.parentEarlier v p hv
      have hpn : p ≠ nbr := by
        intro h
        subst h
        exact (lookupA_eq_none_iff.mp hfresh) (keyIdx_mem_of_eq_some hpj)
      refine ⟨i + 1, j + 1, ?_, ?_, by omega⟩
      · rw [keyIdx_cons_ne _ _ hvn, hvi]
        rfl
      · rw [keyIdx_cons_ne _ _ hpn, hpj]
        rfl
  · intro v pd hv
    by_cases hvn : v = nbr
    · subst hvn
      obtain ⟨pdu, hpdu⟩ := Option.isSome_iff_exists.mp hu
      obtain ⟨lu, hluc, hluh⟩ := ht.chains u pdu hpdu
      have hlune : lu ≠ [] := by
        intro h
        rw [h] at hluh
        exact absurd hluh (by simp)
      refine ⟨lu ++ [v], ?_, ?_⟩
      · have h1 : chainFrom ((v, some u) :: vis) vis.length u = some lu :=
          chainFrom_cons_fresh _ (lookupA_eq_none_iff.mp hfresh) hluc
        simp only [List.length_cons]
        exact chainFrom_succ_parent (lookupA_cons_self _ _ _) h1
      · rw [List.head?_append_of_ne_nil _ hlune]
        exact hluh
    · rw [lookupA_cons_ne _ _ hvn] at hv
      obtain ⟨l, hc, hh⟩ := ht.chains v pd hv
      exact ⟨l, chainFrom_insert _ hfresh hc, hh⟩

lemma confInv_step {f : α → List α} {tgt src : α} {c c' : SPConf α}
    (h : SPStep f tgt c c') (hc : ConfInv f src c) : ConfInv f src c' := by
  cases h with
  | pop vis u d q =>
    refine ⟨hc.tree, ?_, ?_⟩
    · intro e he
      exact hc.qVis e (List.mem_cons_of_mem _ he)
    · intro u' d' rest' hf
      simp only [Option.some.injEq, Prod.mk.injEq] at hf
      obtain ⟨rfl, -, -⟩ := hf
      exact hc.qVis (u, d) (List.mem_cons_self _ _)
  | seen vis q u d nbr rest hs =>
    refine ⟨hc.tree, hc.qVis, ?_⟩
    intro u' d' rest' hf
    simp only [Option.some.injEq, Prod.mk.injEq] at hf
    obtain ⟨rfl, -, -⟩ := hf
    exact hc.frameVis u d (nbr :: rest) rfl
  | visit vis q u d nbr rest hfresh hne =>
    have hu := hc.frameVis u d (nbr :: rest) rfl
    refine ⟨treeInv_insert hc.tree hfresh hu, ?_, ?_⟩
    · intro e he
      rcases List.mem_append.mp he with h1 | h2
      · exact lookupA_cons_isSome _ (hc.qVis e h1)
      · simp at h2
        subst h2
        rw [lookupA_cons_self]
        rfl
    · intro u' d' rest' hf
      simp only [Option.some.injEq, Prod.mk.injEq] at hf
      obtain ⟨rfl, -, -⟩ := hf
      exact lookupA_cons_isSome _ hu
  | found vis q u d rest hfresh =>
    have hu := hc.frameVis u d (tgt :: rest) rfl
    refine ⟨treeInv_insert hc.tree hfresh hu, ?_, ?_⟩
    · intro e he
      rcases List.mem_append.mp he with h1 | h2
      · exact lookupA_cons_isSome _ (hc.qVis e h1)
      · simp at h2
        subst h2
        rw [lookupA_cons_self]
        rfl
    · intro u' d' rest' hf
      simp only [Option.some.injEq, Prod.mk.injEq] at hf
      obtain ⟨rfl, -, -⟩ := hf
      exact lookupA_cons_isSome _ hu
  | finish vis q u d =>
    refine ⟨hc.tree, hc.qVis, ?_⟩
    intro u' d' rest' hf
    exact absurd hf (by simp)

lemma treeInv_init {f : α → List α} (src : α) : TreeInv f src [(src, none)] := by
  refine ⟨by simp, lookupA_cons_self _ _ _, ?_, ?_, ?_⟩
  · intro v hv
    by_cases hvs : v = src
    · exact hvs
    · rw [lookupA_cons_ne _ _ hvs] at hv
      exact absurd hv (by simp [lookupA])
  · intro v p hv
    by_cases hvs : v = src
    · subst hvs
      rw [lookupA_cons_self] at hv
      exact absurd hv (by simp)
    · rw [lookupA_cons_ne _ _ hvs] at hv
      exact absurd hv (by simp [lookupA])
  · intro v pd hv
    by_cases hvs : v = src
    · subst hvs
      refine ⟨[v], ?_, by simp⟩
      have h1 : ([(v, (none : Option α))]).length = 0 + 1 := by simp
      rw [h1]
      exact chainFrom_succ_root (lookupA_cons_self _ _ _)
    · rw [lookupA_cons_ne _ _ hvs] at hv
      exact absurd hv (by simp [lookupA])

lemma confInv_init {f : α → List α} (src : α) :
    ConfInv f src ⟨[(src, none)], [(src, 0)], none⟩ := by
  refine ⟨treeInv_init src, ?_, ?_⟩
  · intro e he
    simp at he
    subst he
    rw [lookupA_cons_self]
    rfl
  · intro u d rest hf
    exact absurd hf (by simp)

lemma confInv_reach {f : α → List α} {tgt src : α} {c : SPConf α}
    (h : Relation.ReflTransGen (SPStep f tgt) (spInit src) c) : ConfInv f src c := by
  induction h with
  | refl => exact confInv_init src
  | tail _ hstep ihc => exact confInv_step hstep ihc

/-! The write pattern of the backward buffer fill. -/

lemma writeTrace_length (outLen k : Nat) : (writeTrace outLen k).length = k := by
  simp [writeTrace]

lemma writeTrace_mem_iff {n j : Nat} : j ∈ writeTrace n n ↔ j < n := by
  simp only [writeTrace, List.mem_map, List.mem_range]
  constructor
  · rintro ⟨i, hi, rfl⟩
    omega
  · intro hj
    exact ⟨n - 1 - j, by omega, by omega⟩

lemma writeTrace_nodup (n : Nat) : (writeTrace n n).Nodup := by
  refine List.Nodup.map_on ?_ (List.nodup_range n)
  intro x hx y hy hxy
  simp only [List.mem_range] at hx hy
  omega

/-! The claims. -/

/-- Claim C1: if shortest_path returns a sequence, its first element is src,
its last element is tgt, every consecutive pair is connected by the
neighbour function, and its length equals the minimum number of edges on any
walk from src to tgt plus 1. -/
theorem claim_C1 {α : Type} [DecidableEq α] [Fintype α]
    (src tgt : α) (f : α → List α) (p : List α)
    (h : shortest_path src tgt f = some p) :
    p.head? = some src ∧ p.getLast? = some tgt ∧ List.Chain' (ERel f) p ∧
    p.length = sInf {n | ∃ l, WalkFT f src tgt l ∧ l.length = n + 1} + 1 := by
  obtain ⟨⟨hw, hh, hl⟩, hmin⟩ := (shortest_path_spec src tgt f).2 p h
  refine ⟨hh, hl, hw, ?_⟩
  have hpne : p ≠ [] := by rintro rfl; simp at hh
  have hp1 : 1 ≤ p.length := List.length_pos.mpr hpne
  have hmem : p.length - 1 ∈ {n | ∃ l, WalkFT f src tgt l ∧ l.length = n + 1} :=
    ⟨p, ⟨hw, hh, hl⟩, by omega⟩
  obtain ⟨l0, hl0, hlen0⟩ := Nat.sInf_mem (Set.nonempty_of_mem hmem)
  have h1 := hmin l0 hl0
  have h2 := Nat.sInf_le hmem
  omega

theorem claim_C1_witness :
    ([0, 1] : List (Fin 2)).head? = some 0 ∧ ([0, 1] : List (Fin 2)).getLast? = some 1 ∧
    List.Chain' (ERel pathGraph2) [0, 1] ∧
    ([0, 1] : List (Fin 2)).length =
      sInf {n | ∃ l, WalkFT pathGraph2 0 1 l ∧ l.length = n + 1} + 1 :=
  claim_C1 0 1 pathGraph2 [0, 1] (by decide)

/-- Claim C2: num_reachable_targets equals the cardinality of the set of
vertices reachable from the source (the source included) that satisfy the
target predicate; in particular no vertex is counted twice. -/
theorem claim_C2 {α : Type} [DecidableEq α] [Fintype α]
    (src : α) (is_tgt : α → Bool) (f : α → List α) :
    num_reachable_targets src is_tgt f =
      Set.ncard {v | Relation.ReflTransGen (ERel f) src v ∧ is_tgt v = true} :=
  num_reachable_targets_eq src is_tgt f

/-- Claim C3: whenever num_of_paths returns a value, that value is the
number of distinct walks from the source that terminate the instant they
reach a vertex satisfying the predicate; and on the DAG of test_num_paths
with predicate 8 ≤ x it returns 4. -/
theorem claim_C3 :
    (∀ {α : Type} [DecidableEq α] (fuel : Nat) (src : α) (is_tgt : α → Bool)
        (f : α → List α) (n : Nat), (∀ v, (f v).Nodup) →
        num_of_paths fuel src is_tgt f = some n →
        ∃ s : Finset (List α), (∀ w, w ∈ s ↔ IsTermWalk f is_tgt src w) ∧ s.card = n) ∧
    num_of_paths 32 0 (fun x => decide (8 ≤ x)) dagEdges = some 4 := by
  constructor
  · intro α _ fuel src is_tgt f n hN h
    exact num_of_paths_count hN h
  · decide

theorem claim_C3_witness :
    ∃ s : Finset (List (Fin 2)),
      (∀ w, w ∈ s ↔ IsTermWalk pathGraph2 (fun x => decide (x = 1)) 0 w) ∧ s.card = 1 :=
  claim_C3.1 3 0 (fun x => decide (x = 1)) pathGraph2 1 (by decide) (by decide)

/-- Claim C4: exists_path decides the existence of a path of any length,
zero included; in particular it is true when source and target coincide. -/
theorem claim_C4 {α : Type} [DecidableEq α] [Fintype α]
    (src tgt : α) (f : α → List α) :
    (exists_path src tgt f = true ↔ Relation.ReflTransGen (ERel f) src tgt) ∧
    exists_path src src f = true := by
  refine ⟨exists_path_iff src tgt f, ?_⟩
  simp [exists_path]

/-- Claim C5: shortest_path returns none exactly when no path from src to
tgt exists; any returned value is a complete path (claim C1), never a
partial one. -/
theorem claim_C5 {α : Type} [DecidableEq α] [Fintype α]
    (src tgt : α) (f : α → List α) :
    shortest_path src tgt f = none ↔ ¬ Relation.ReflTransGen (ERel f) src tgt := by
  constructor
  · exact (shortest_path_spec src tgt f).1
  · intro hn
    cases hsp : shortest_path src tgt f with
    | none => rfl
    | some p =>
      obtain ⟨hw, -⟩ := (shortest_path_spec src tgt f).2 p hsp
      exact absurd (walkFT_reflTransGen hw) hn

/-- Claim C6: on a finite graph whose reachable part has no cycle avoiding
all target vertices, the num_of_paths recursion terminates: some fuel makes
the fuel-bounded recursion return a value. -/
theorem claim_C6 {α : Type} [DecidableEq α] [Fintype α] (src : α) (is_tgt : α → Bool)
    (f : α → List α)
    (H : ∀ v, Relation.ReflTransGen (ERel f) src v →
      ¬ Relation.TransGen (NTRel f is_tgt) v v) :
    ∃ fuel n, num_of_paths fuel src is_tgt f = some n :=
  num_of_paths_total H

theorem claim_C6_witness :
    ∃ fuel n, num_of_paths fuel (0 : Fin 2) (fun _ => false) pathGraph2 = some n := by
  refine claim_C6 0 (fun _ => false) pathGraph2 ?_
  intro v _ hcyc
  have hr : ∀ a b : Fin 2, NTRel pathGraph2 (fun _ => false) a b → a = 0 ∧ b = 1 := by decide
  obtain ⟨w, -, hlast⟩ := Relation.TransGen.tail'_iff.mp hcyc
  obtain ⟨w', hfirst, -⟩ := Relation.TransGen.head'_iff.mp hcyc
  have hv1 : v = 1 := (hr w v hlast).2
  have hv0 : v = 0 := (hr v w' hfirst).1
  rw [hv1] at hv0
  exact absurd hv0 (by decide)

/-- Claim C7: at every point during the breadth-first search of
shortest_path (every configuration reachable from the initial one by the
step relation), the parent pointers in the visited map form a tree rooted
at the source: src maps to none, it is the only vertex mapping to none,
every other visited vertex maps to some vertex inserted strictly earlier,
and following parent links from any visited vertex reaches src in finitely
many steps with no cycles. -/
theorem claim_C7 {α : Type} [DecidableEq α] (f : α → List α) (src tgt : α) (c : SPConf α)
    (h : Relation.ReflTransGen (SPStep f tgt) (spInit src) c) :
    lookupA c.vis src = some none ∧
    (∀ v, lookupA c.vis v = some none → v = src) ∧
    (∀ v p, lookupA c.vis v = some (some p) →
      ∃ i j, keyIdx c.vis v = some i ∧ keyIdx c.vis p = some j ∧ i < j) ∧
    (∀ v pd, lookupA c.vis v = some pd →
      ∃ l, chainFrom c.vis c.vis.length v = some l ∧ l.head? = some src) := by
  have ht := (confInv_reach h).tree
  exact ⟨ht.srcRoot, ht.rootUnique, ht.parentEarlier, ht.chains⟩

theorem claim_C7_witness :
    lookupA [((0 : Fin 2), (none : Option (Fin 2)))] 0 = some none ∧
    (∀ v, lookupA [((0 : Fin 2), (none : Option (Fin 2)))] v = some none → v = 0) ∧
    (∀ v p, lookupA [((0 : Fin 2), (none : Option (Fin 2)))] v = some (some p) →
      ∃ i j, keyIdx [((0 : Fin 2), (none : Option (Fin 2)))] v = some i ∧
        keyIdx [((0 : Fin 2), (none : Option (Fin 2)))] p = some j ∧ i < j) ∧
    (∀ v pd, lookupA [((0 : Fin 2), (none : Option (Fin 2)))] v = some pd →
      ∃ l, chainFrom [((0 : Fin 2), (none : Option (Fin 2)))]
        ([((0 : Fin 2), (none : Option (Fin 2)))]).length v = some l ∧
        l.head? = some (0 : Fin 2)) :=
  claim_C7 pathGraph2 0 1 ⟨[(0, none)], [], some (0, 0, pathGraph2 0)⟩
    (Relation.ReflTransGen.single (SPStep.pop [((0 : Fin 2), none)] 0 0 []))

/-- Claim C8: when the target is discovered as a neighbour of the vertex
being expanded at distance d, the reconstruction succeeds at once with a
chain of exactly d + 2 vertices — the exact capacity of the output buffer —
and the backward fill of a chain of that length writes each of the d + 2
slots exactly once, never touching an index outside the buffer. -/
theorem claim_C8 {α : Type} [DecidableEq α] (f : α → List α) (tgt u : α) (d : Nat)
    (rest : List α) (vis : List (α × Option α)) (q : List (α × Nat)) (lu : List α)
    (hchain : chainFrom vis vis.length u = some lu) (hlen : lu.length = d + 1)
    (htgt : lookupA vis tgt = none) :
    spNbrs f tgt u d (tgt :: rest) vis q = Sum.inr (some (lu ++ [tgt])) ∧
    (lu ++ [tgt]).length = d + 2 ∧
    (writeTrace (d + 2) (lu ++ [tgt]).length).length = d + 2 ∧
    (writeTrace (d + 2) (lu ++ [tgt]).length).Nodup ∧
    (∀ i ∈ writeTrace (d + 2) (lu ++ [tgt]).length, i < d + 2) ∧
    (∀ j < d + 2, j ∈ writeTrace (d + 2) (lu ++ [tgt]).length) := by
  have hplen : (lu ++ [tgt]).length = d + 2 := by simp [hlen]
  have hchain2 : chainFrom ((tgt, some u) :: vis) ((tgt, some u) :: vis).length tgt =
      some (lu ++ [tgt]) := by
    have h1 : chainFrom ((tgt, some u) :: vis) vis.length u = some lu :=
      chainFrom_cons_fresh _ (lookupA_eq_none_iff.mp htgt) hchain
    simp only [List.length_cons]
    exact chainFrom_succ_parent (lookupA_cons_self _ _ _) h1
  have hstep : spNbrs f tgt u d (tgt :: rest) vis q =
      Sum.inr (chainFrom ((tgt, some u) :: vis) ((tgt, some u) :: vis).length tgt) := by
    rw [spNbrs, htgt]
    simp
  refine ⟨by rw [hstep, hchain2], hplen, ?_, ?_, ?_, ?_⟩
  · rw [hplen, writeTrace_length]
  · rw [hplen]
    exact writeTrace_nodup _
  · intro i hi
    rw [hplen] at hi
    exact writeTrace_mem_iff.mp hi
  · intro j hj
    rw [hplen]
    exact writeTrace_mem_iff.mpr hj

theorem claim_C8_witness :
    spNbrs pathGraph2 (1 : Fin 2) 0 0 [1] [((0 : Fin 2), (none : Option (Fin 2)))] [] =
      Sum.inr (some ([0] ++ [1])) ∧
    (([0] : List (Fin 2)) ++ [1]).length = 0 + 2 ∧
    (writeTrace (0 + 2) (([0] : List (Fin 2)) ++ [1]).length).length = 0 + 2 ∧
    (writeTrace (0 + 2) (([0] : List (Fin 2)) ++ [1]).length).Nodup ∧
    (∀ i ∈ writeTrace (0 + 2) (([0] : List (Fin 2)) ++ [1]).length, i < 0 + 2) ∧
    (∀ j < 0 + 2, j ∈ writeTrace (0 + 2) (([0] : List (Fin 2)) ++ [1]).length) :=
  claim_C8 pathGraph2 1 0 0 [] [(0, none)] [] [0] (by decide) (by decide) (by decide)

/-- Claim C9: shortest_path from a vertex to itself returns the single
element sequence containing just that vertex, for every neighbour
function. -/
theorem claim_C9 {α : Type} [DecidableEq α] [Fintype α] (src : α) (f : α → List α) :
    shortest_path src src f = some [src] := by
  simp [shortest_path]

/-- Claim C10: when the source has no neighbours, num_of_paths returns 0
even if the source satisfies the predicate (the predicate is never applied
to the source, and no zero-length walk is counted), whereas
num_reachable_targets does count a satisfying source. -/
theorem claim_C10 {α : Type} [DecidableEq α] [Fintype α] (fuel : Nat) (src : α)
    (is_tgt : α → Bool) (f : α → List α) (hsrc : f src = []) :
    num_of_paths (fuel + 1) src is_tgt f = some 0 ∧
    (is_tgt src = true → 1 ≤ num_reachable_targets src is_tgt f) := by
  constructor
  · simp [num_of_paths, hsrc, numOfPathsGo]
  · intro ht
    rw [num_reachable_targets_eq]
    refine (Set.ncard_pos (Set.toFinite _)).mpr ?_
    exact ⟨src, Relation.ReflTransGen.refl, ht⟩

theorem claim_C10_witness :
    num_of_paths 5 (1 : Fin 2) (fun _ => true) pathGraph2 = some 0 ∧
    ((fun _ : Fin 2 => true) 1 = true →
      1 ≤ num_reachable_targets 1 (fun _ : Fin 2 => true) pathGraph2) :=
  claim_C10 4 1 (fun _ => true) pathGraph2 (by decide)

end Aoc
